import Mathlib

/-!
Verification of the `Descriptive<T>` streaming descriptive-statistics
accumulator (src/Descriptive.h) against its natural-language specification.

Embedding notes:
* The numeric template parameter `T` and the C++ `double` are both embedded
  as exact rationals `ℚ`; `double` arithmetic is idealised as exact real
  arithmetic (the specification's claims are phrased "exact over the reals").
  `sqrt` is `Real.sqrt` on the radicand cast to `ℝ`.
* `nan("")` (the not-a-number sentinel) is modelled as `Option.none`; a
  vector subscript outside the valid range (undefined behaviour in C++) is
  likewise modelled as an absent result via `List.getElem?`.
* `numeric_limits<T>::min()` is modelled as an arbitrary `sentinel : ℚ`
  passed to the constructor, together with the hypothesis (true of every
  C++ value of `T`) that every added value is `≥ sentinel`.
* `std::partial_sort(first, first + size/2 + 1, last)` is underspecified by
  the C++ standard: afterwards the first `size/2 + 1` positions hold the
  smallest elements in ascending order and the order of the remaining
  elements is unspecified.  It is therefore embedded as the relation
  `halfSortSpec` rather than a function, and the queries that trigger the
  internal `sort()` become step relations `(state, result, state')`.
-/

namespace CqMetrics

/-- State of the `Descriptive<T>` accumulator: fields `sum`, `max`,
`values`, the running-variance state `a` and `q`, and the `is_sorted`
cache flag, exactly as in the C++ class. -/
structure Descriptive where
  sum : ℚ
  max : ℚ
  values : List ℚ
  a : ℚ
  q : ℚ
  is_sorted : Bool
deriving DecidableEq

/-- The default constructor `Descriptive()`: `sum(0)`,
`max(numeric_limits<T>::min())` (the sentinel), `a(0)`, `q(0)`,
`is_sorted(true)`, empty `values`. -/
def initD (sentinel : ℚ) : Descriptive :=
  { sum := 0, max := sentinel, values := [], a := 0, q := 0, is_sorted := true }

/-- `Descriptive::add(v)`: push `v` onto `values`, clear `is_sorted`,
update `sum`, update `max` when `v > max`, and run the Welford
running-variance recurrence (`a` is updated with the post-push count,
`q` uses the previous and the new `a`). -/
def Descriptive.add (d : Descriptive) (v : ℚ) : Descriptive :=
  let aNew := d.a + (v - d.a) / ((d.values.length : ℚ) + 1)
  { sum := d.sum + v
    max := if v > d.max then v else d.max
    values := d.values ++ [v]
    a := aNew
    q := d.q + (v - d.a) * (v - aNew)
    is_sorted := false }

/-- Fold `add` over a list of observations (a whole sequence of `add` calls,
in insertion order). -/
def addAll (d : Descriptive) (vs : List ℚ) : Descriptive :=
  vs.foldl Descriptive.add d

/-- `Descriptive::get_sum()`. -/
def Descriptive.get_sum (d : Descriptive) : ℚ := d.sum

/-- `Descriptive::get_count()`: `values.size()`. -/
def Descriptive.get_count (d : Descriptive) : ℕ := d.values.length

/-- `Descriptive::get_max()`. -/
def Descriptive.get_max (d : Descriptive) : ℚ := d.max

/-- `Descriptive::get_mean()`: `(double)sum / values.size()`.  When
`values.size() == 0` this is the IEEE quotient `0.0 / 0`, i.e. NaN
(the state reached with zero `add` calls has `sum = 0`), modelled as
`none`; otherwise the exact quotient. -/
def Descriptive.get_mean (d : Descriptive) : Option ℚ :=
  if d.values.length = 0 then none else some (d.sum / (d.values.length : ℚ))

/-- `Descriptive::get_standard_deviation()`:
`values.size() ? sqrt(q / values.size()) : nan("")`. -/
noncomputable def Descriptive.get_standard_deviation (d : Descriptive) : Option ℝ :=
  if d.values.length = 0 then none
  else some (Real.sqrt ((d.q : ℝ) / (d.values.length : ℝ)))

/-- Contract of `std::partial_sort(v.begin(), v.begin() + v.size()/2 + 1,
v.end())` as guaranteed by the C++ standard: the result `l'` is a
permutation of `l`, its first `l.length / 2 + 1` positions hold the
smallest elements in ascending order (each prefix element `≤` each
remaining element), and the order of the remaining elements is
unspecified. -/
def halfSortSpec (l l' : List ℚ) : Prop :=
  l.Perm l' ∧
  (l'.take (l.length / 2 + 1)).Sorted (· ≤ ·) ∧
  ∀ x ∈ l'.take (l.length / 2 + 1), ∀ y ∈ l'.drop (l.length / 2 + 1), x ≤ y

instance halfSortSpecDecidable (l l' : List ℚ) : Decidable (halfSortSpec l l') := by
  unfold halfSortSpec
  infer_instance

/-- `Descriptive::sort()` as a step relation: a no-op when `is_sorted`
holds, otherwise it replaces `values` by some list satisfying the
`partial_sort` contract and sets `is_sorted`. -/
def sortStep (d d' : Descriptive) : Prop :=
  if d.is_sorted then d' = d
  else ∃ l', halfSortSpec d.values l' ∧
    d' = { d with values := l', is_sorted := true }

/-- `Descriptive::get_min()` as a step relation: run `sort()`, then return
`values.front()` (absent on an empty vector, where `front()` is undefined
behaviour). -/
def get_min_step (d : Descriptive) (r : Option ℚ) (d' : Descriptive) : Prop :=
  sortStep d d' ∧ r = d'.values.head?

/-- The body of `Descriptive::get_median()` after the emptiness guard:
for even size, `(values[size/2] + values[size/2 + 1]) / 2.0` (absent when
a subscript is past the end, which is undefined behaviour in C++); for odd
size, `values[size/2]`. -/
def medianOf (l : List ℚ) : Option ℚ :=
  if l.length % 2 = 0 then
    match l[l.length / 2]?, l[l.length / 2 + 1]? with
    | some x, some y => some ((x + y) / 2)
    | _, _ => none
  else l[l.length / 2]?

/-- `Descriptive::get_median()` as a step relation: `nan("")` (modelled
`none`) on an empty vector, before any sorting; otherwise run `sort()` and
read the median per `medianOf`. -/
def get_median_step (d : Descriptive) (r : Option ℚ) (d' : Descriptive) : Prop :=
  if d.values.length = 0 then r = none ∧ d' = d
  else sortStep d d' ∧ r = medianOf d'.values

/-- The single output line of `operator<<` on a `Descriptive`: either the
five tab-separated fields `count, min, mean, max, standard_deviation` in
that order (`fields`), or the literal `"0\x7ct\x7ct\x7ct\x7ct"` row — count `0`
followed by four empty tab-separated fields (`emptyFields`).
Stringification of the numbers is abstracted: the constructor carries the
numeric field values in output order. -/
inductive RenderLine where
  | fields (count : ℕ) (mn : ℚ) (mean : ℚ) (mx : ℚ) (sd : ℝ)
  | emptyFields

/-- `operator<<(ostream, const Descriptive&)` as a step relation: when
`get_count() != 0` it emits `get_count(), get_min(), get_mean(),
get_max(), get_standard_deviation()` (the `get_min()` call may sort, so
the state may change); when `get_count() == 0` it emits the literal
`0` row with four empty fields and computes no statistic. -/
def render_step (d : Descriptive) (out : RenderLine) (d' : Descriptive) : Prop :=
  if d.values.length ≠ 0 then
    ∃ mn d₁ mean sd,
      get_min_step d (some mn) d₁ ∧
      d₁.get_mean = some mean ∧
      d₁.get_standard_deviation = some sd ∧
      out = RenderLine.fields d.get_count mn mean d₁.get_max sd ∧
      d' = d₁
  else out = RenderLine.emptyFields ∧ d' = d

/-- The added values in ascending order (the "ascending-ordered values"
the specification indexes into). -/
def sortedValues (l : List ℚ) : List ℚ :=
  l.insertionSort (· ≤ ·)

/-- Population variance by the direct two-pass formula:
`(1/n) * Σ (x - mean)²`. -/
def popVariance (vs : List ℚ) : ℚ :=
  ((vs.map (fun v => (v - vs.sum / (vs.length : ℚ)) ^ 2)).sum) / (vs.length : ℚ)

/-! ### Basic bookkeeping lemmas about `add` and `addAll` -/

lemma add_values (d : Descriptive) (v : ℚ) : (d.add v).values = d.values ++ [v] := rfl

lemma add_sum (d : Descriptive) (v : ℚ) : (d.add v).sum = d.sum + v := rfl

lemma add_is_sorted (d : Descriptive) (v : ℚ) : (d.add v).is_sorted = false := rfl

lemma addAll_nil (d : Descriptive) : addAll d [] = d := rfl

lemma addAll_cons (d : Descriptive) (v : ℚ) (vs : List ℚ) :
    addAll d (v :: vs) = addAll (d.add v) vs := rfl

lemma addAll_concat (d : Descriptive) (vs : List ℚ) (v : ℚ) :
    addAll d (vs ++ [v]) = (addAll d vs).add v := by
  simp [addAll, List.foldl_append]

lemma addAll_values (d : Descriptive) (vs : List ℚ) :
    (addAll d vs).values = d.values ++ vs := by
  induction vs generalizing d with
  | nil => simp [addAll_nil]
  | cons v vs ih => rw [addAll_cons, ih, add_values]; simp

lemma addAll_sum (d : Descriptive) (vs : List ℚ) :
    (addAll d vs).sum = d.sum + vs.sum := by
  induction vs generalizing d with
  | nil => simp [addAll_nil]
  | cons v vs ih => rw [addAll_cons, ih, add_sum]; simp; ring

lemma addAll_length (s : ℚ) (vs : List ℚ) :
    (addAll (initD s) vs).values.length = vs.length := by
  rw [addAll_values]; simp [initD]

lemma addAll_is_sorted (d : Descriptive) (vs : List ℚ) (h : vs ≠ []) :
    (addAll d vs).is_sorted = false := by
  induction vs using List.reverseRecOn with
  | nil => exact absurd rfl h
  | append_singleton l v _ => rw [addAll_concat, add_is_sorted]

lemma add_max (d : Descriptive) (v : ℚ) : (d.add v).max = Max.max d.max v := by
  show (if v > d.max then v else d.max) = Max.max d.max v
  rcases lt_or_le d.max v with h | h
  · rw [if_pos h, max_eq_right h.le]
  · rw [if_neg (not_lt.mpr h), max_eq_left h]

lemma addAll_max (d : Descriptive) (vs : List ℚ) :
    (addAll d vs).max = vs.foldl Max.max d.max := by
  induction vs generalizing d with
  | nil => simp [addAll_nil]
  | cons v vs ih => rw [addAll_cons, ih, add_max]; rfl

lemma foldl_max_spec (vs : List ℚ) (m : ℚ) :
    m ≤ vs.foldl Max.max m ∧ (∀ v ∈ vs, v ≤ vs.foldl Max.max m) ∧
      (vs.foldl Max.max m = m ∨ vs.foldl Max.max m ∈ vs) := by
  induction vs generalizing m with
  | nil => simp
  | cons v vs ih =>
    obtain ⟨h1, h2, h3⟩ := ih (Max.max m v)
    rw [List.foldl_cons]
    refine ⟨le_trans (le_max_left m v) h1, ?_, ?_⟩
    · intro x hx
      rcases List.mem_cons.mp hx with rfl | hx
      · exact le_trans (le_max_right _ _) h1
      · exact h2 x hx
    · rcases h3 with h | h
      · rcases max_choice m v with hm | hm
        · exact Or.inl (by rw [h, hm])
        · exact Or.inr (by rw [h, hm]; exact List.mem_cons_self v vs)
      · exact Or.inr (List.mem_cons_of_mem v h)

/-! ### Welford running-variance invariant -/

/-- Sum of squares of a list (auxiliary for the variance algebra). -/
def sqSum (l : List ℚ) : ℚ := (l.map (fun x => x ^ 2)).sum

lemma sqSum_nil : sqSum [] = 0 := rfl

lemma sqSum_append (l l' : List ℚ) : sqSum (l ++ l') = sqSum l + sqSum l' := by
  simp [sqSum]

/-- Invariant of the running-variance state after any sequence of `add`
calls from a fresh accumulator: `a` is the mean of the added values and
`q` is their sum of squares minus `(sum)² / count`. -/
lemma addAll_a_q (s : ℚ) (vs : List ℚ) :
    (addAll (initD s) vs).a = vs.sum / (vs.length : ℚ) ∧
    (addAll (initD s) vs).q = sqSum vs - vs.sum ^ 2 / (vs.length : ℚ) := by
  induction vs using List.reverseRecOn with
  | nil => simp [addAll_nil, initD, sqSum_nil]
  | append_singleton l v ih =>
    obtain ⟨ha, hq⟩ := ih
    rw [addAll_concat]
    have hlen : (addAll (initD s) l).values.length = l.length := addAll_length s l
    have haN : ((addAll (initD s) l).add v).a =
        (addAll (initD s) l).a +
          (v - (addAll (initD s) l).a) / ((l.length : ℚ) + 1) := by
      show (addAll (initD s) l).a + (v - (addAll (initD s) l).a) /
          (((addAll (initD s) l).values.length : ℚ) + 1) = _
      rw [hlen]
    have hqN : ((addAll (initD s) l).add v).q =
        (addAll (initD s) l).q + (v - (addAll (initD s) l).a) *
          (v - ((addAll (initD s) l).add v).a) := rfl
    rcases eq_or_ne l [] with rfl | hne
    · simp only [List.nil_append, List.sum_cons, List.sum_nil, List.length_cons,
        List.length_nil] at *
      rw [haN, hqN, haN, ha, hq]
      norm_num [sqSum]
    · have hn : (l.length : ℚ) ≠ 0 := by
        exact_mod_cast fun h => hne (List.length_eq_zero.mp (by exact_mod_cast h))
      have hn1 : (l.length : ℚ) + 1 ≠ 0 := by positivity
      constructor
      · rw [haN, ha]
        rw [List.sum_append, List.length_append]
        push_cast
        field_simp
        ring
      · rw [hqN, haN, hq, ha, sqSum_append]
        rw [List.sum_append, List.length_append]
        simp only [List.sum_cons, List.sum_nil, List.length_cons, List.length_nil, sqSum,
          List.map_cons, List.map_nil]
        push_cast
        field_simp
        ring

/-- Expansion of a sum of squared deviations about an arbitrary point. -/
lemma sum_map_sub_sq (l : List ℚ) (m : ℚ) :
    (l.map (fun x => (x - m) ^ 2)).sum
      = sqSum l - 2 * m * l.sum + (l.length : ℚ) * m ^ 2 := by
  induction l with
  | nil => simp [sqSum_nil]
  | cons x l ih =>
    simp only [List.map_cons, List.sum_cons, List.length_cons, sqSum] at *
    rw [ih]
    push_cast
    ring

/-- The two-pass population variance, rewritten in sum-of-squares form. -/
lemma popVariance_eq (vs : List ℚ) (h : vs ≠ []) :
    popVariance vs = (sqSum vs - vs.sum ^ 2 / (vs.length : ℚ)) / (vs.length : ℚ) := by
  have hn : (vs.length : ℚ) ≠ 0 := by
    exact_mod_cast fun hh => h (List.length_eq_zero.mp (by exact_mod_cast hh))
  unfold popVariance
  rw [sum_map_sub_sq]
  field_simp
  ring

/-! ### The partial-sort contract determines the sorted prefix -/

lemma sortedValues_sorted (l : List ℚ) : (sortedValues l).Sorted (· ≤ ·) :=
  List.sorted_insertionSort _ l

lemma sortedValues_perm (l : List ℚ) : (sortedValues l).Perm l :=
  List.perm_insertionSort _ l

lemma sortedValues_length (l : List ℚ) : (sortedValues l).length = l.length :=
  (sortedValues_perm l).length_eq

/-- Any list meeting the `partial_sort` contract decomposes the fully
sorted list as its (already sorted) prefix followed by a sort of its
(unspecified-order) tail. -/
lemma halfSort_key (l l' : List ℚ) (h : halfSortSpec l l') :
    sortedValues l =
      l'.take (l.length / 2 + 1) ++ sortedValues (l'.drop (l.length / 2 + 1)) := by
  obtain ⟨hperm, hsorted, hdom⟩ := h
  have hpt : l'.take (l.length / 2 + 1) ++ l'.drop (l.length / 2 + 1) = l' :=
    List.take_append_drop _ l'
  have hTp : (sortedValues (l'.drop (l.length / 2 + 1))).Perm
      (l'.drop (l.length / 2 + 1)) := sortedValues_perm _
  have hs : (l'.take (l.length / 2 + 1) ++
      sortedValues (l'.drop (l.length / 2 + 1))).Sorted (· ≤ ·) :=
    List.pairwise_append.mpr
      ⟨hsorted, sortedValues_sorted _, fun a ha b hb => hdom a ha b (hTp.subset hb)⟩
  have h1 : l'.Perm (l'.take (l.length / 2 + 1) ++
      sortedValues (l'.drop (l.length / 2 + 1))) := by
    conv_lhs => rw [← hpt]
    exact List.Perm.append_left _ hTp.symm
  exact List.eq_of_perm_of_sorted
    ((sortedValues_perm l).trans (hperm.trans h1)) (sortedValues_sorted l) hs

/-- The first `length/2 + 1` positions after a conforming partial sort
coincide with the corresponding prefix of the fully sorted list. -/
lemma halfSort_take (l l' : List ℚ) (h : halfSortSpec l l') :
    l'.take (l.length / 2 + 1) = (sortedValues l).take (l.length / 2 + 1) := by
  rw [halfSort_key l l' h]
  rcases le_or_lt (l.length / 2 + 1) l'.length with hle | hlt
  · have hp : (l'.take (l.length / 2 + 1)).length = l.length / 2 + 1 := by
      rw [List.length_take]; omega
    have h2 := List.take_left (l'.take (l.length / 2 + 1))
      (sortedValues (l'.drop (l.length / 2 + 1)))
    rw [hp] at h2
    exact h2.symm
  · have hdropnil : l'.drop (l.length / 2 + 1) = [] :=
      List.drop_eq_nil_of_le hlt.le
    have hnil : sortedValues (l'.drop (l.length / 2 + 1)) = [] := by
      rw [hdropnil]; rfl
    rw [hnil, List.append_nil, List.take_take, min_self]

/-- Reading any position inside the sorted prefix after a conforming
partial sort reads the fully sorted list. -/
lemma halfSort_getElem (l l' : List ℚ) (h : halfSortSpec l l')
    (i : ℕ) (hi : i < l.length / 2 + 1) : l'[i]? = (sortedValues l)[i]? := by
  have h1 : (l'.take (l.length / 2 + 1))[i]? = l'[i]? := by
    rw [List.getElem?_take, if_pos hi]
  have h2 : ((sortedValues l).take (l.length / 2 + 1))[i]? = (sortedValues l)[i]? := by
    rw [List.getElem?_take, if_pos hi]
  rw [← h1, halfSort_take l l' h, h2]

/-! ### Lemmas about the sort / query step relations -/

lemma sortStep_frame (d d' : Descriptive) (h : sortStep d d') :
    d'.sum = d.sum ∧ d'.max = d.max ∧ d'.a = d.a ∧ d'.q = d.q ∧
      d.values.Perm d'.values := by
  unfold sortStep at h
  split at h
  · subst h; exact ⟨rfl, rfl, rfl, rfl, List.Perm.refl _⟩
  · obtain ⟨l', hspec, rfl⟩ := h; exact ⟨rfl, rfl, rfl, rfl, hspec.1⟩

lemma sortStep_sorted (d d' : Descriptive) (h : sortStep d d') :
    d'.is_sorted = true := by
  unfold sortStep at h
  split at h
  · subst h; assumption
  · obtain ⟨l', _, rfl⟩ := h; rfl

lemma sortStep_of_sorted (d d' : Descriptive) (hd : d.is_sorted = true)
    (h : sortStep d d') : d' = d := by
  unfold sortStep at h
  rwa [if_pos hd] at h

lemma sortStep_spec (d d' : Descriptive) (hd : d.is_sorted = false)
    (h : sortStep d d') :
    ∃ l', halfSortSpec d.values l' ∧
      d' = { d with values := l', is_sorted := true } := by
  unfold sortStep at h
  rwa [if_neg (by simp [hd])] at h

lemma sortStep_intro (d : Descriptive) (l' : List ℚ) (hd : d.is_sorted = false)
    (hs : halfSortSpec d.values l') :
    sortStep d { d with values := l', is_sorted := true } := by
  unfold sortStep
  rw [if_neg (by simp [hd])]
  exact ⟨l', hs, rfl⟩

lemma addAll_values_init (s : ℚ) (vs : List ℚ) :
    (addAll (initD s) vs).values = vs := by
  rw [addAll_values]; rfl

/-- The head of the ascending-ordered values is the minimum. -/
lemma sorted_head_min (l : List ℚ) (hne : l ≠ []) :
    ∃ m, (sortedValues l).head? = some m ∧ m ∈ l ∧ ∀ x ∈ l, m ≤ x := by
  have hne' : sortedValues l ≠ [] := by
    intro h0
    apply hne
    have hl := sortedValues_length l
    rw [h0] at hl
    exact List.length_eq_zero.mp hl.symm
  obtain ⟨m, t, hmt⟩ := List.exists_cons_of_ne_nil hne'
  refine ⟨m, by rw [hmt]; rfl, ?_, ?_⟩
  · exact (sortedValues_perm l).subset (hmt ▸ List.mem_cons_self m t)
  · intro x hx
    have hx' : x ∈ sortedValues l := (sortedValues_perm l).symm.subset hx
    rw [hmt] at hx'
    rcases List.mem_cons.mp hx' with rfl | hx''
    · exact le_refl x
    · have hs := sortedValues_sorted l
      rw [hmt, List.sorted_cons] at hs
      exact hs.1 x hx''

/-! ### Claim C3: `get_min` returns the true minimum -/

lemma get_min_addAll_char (s : ℚ) (vs : List ℚ) (r : Option ℚ) (d' : Descriptive)
    (hne : vs ≠ []) (h : get_min_step (addAll (initD s) vs) r d') :
    ∃ m, r = some m ∧ m ∈ vs ∧ ∀ x ∈ vs, m ≤ x := by
  obtain ⟨hsort, hr⟩ := h
  have his : (addAll (initD s) vs).is_sorted = false := addAll_is_sorted _ _ hne
  obtain ⟨l', hspec, rfl⟩ := sortStep_spec _ _ his hsort
  rw [addAll_values_init] at hspec
  obtain ⟨m, hm, hmem, hmin⟩ := sorted_head_min vs hne
  refine ⟨m, ?_, hmem, hmin⟩
  rw [hr]
  show l'.head? = some m
  rw [List.head?_eq_getElem?, halfSort_getElem vs l' hspec 0 (by omega),
    ← List.head?_eq_getElem?, hm]

/-- Claim C3: for every non-empty sequence of added values and any
insertion order, `get_min()` returns the minimum of all added values
(the internal sort places the smallest `count/2 + 1` elements in
ascending order at the front, and `get_min` returns the first element,
whatever conforming permutation the partial sort produced). -/
theorem C3_get_min_minimum (s : ℚ) (vs : List ℚ) (r : Option ℚ) (d' : Descriptive)
    (hne : vs ≠ []) (h : get_min_step (addAll (initD s) vs) r d') :
    ∃ m, r = some m ∧ m ∈ vs ∧ ∀ x ∈ vs, m ≤ x :=
  get_min_addAll_char s vs r d' hne h

/-- Witness for C3 at the concrete insertion order `3, 1, 2`: a
conforming partial sort yields `[1, 2, 3]` and `get_min` returns `1`. -/
theorem C3_get_min_minimum_witness :
    ∃ m : ℚ, (some (1 : ℚ) = some m ∧ m ∈ ([3, 1, 2] : List ℚ) ∧
      ∀ x ∈ ([3, 1, 2] : List ℚ), m ≤ x) :=
  C3_get_min_minimum 0 [3, 1, 2] (some 1)
    { addAll (initD 0) [3, 1, 2] with values := [1, 2, 3], is_sorted := true }
    (by decide)
    ⟨sortStep_intro (addAll (initD 0) [3, 1, 2]) [1, 2, 3] (by decide)
      (by rw [addAll_values_init]; decide), rfl⟩

/-! ### Claim C4: odd-count median is the exact middle -/

/-- Claim C4: for every sequence of added values with odd count and any
insertion order, `get_median()` returns the element at zero-based index
`count/2` of the ascending-ordered values — the exact middle, i.e. the
true median. -/
theorem C4_get_median_odd (s : ℚ) (vs : List ℚ) (r : Option ℚ) (d' : Descriptive)
    (hodd : vs.length % 2 = 1) (h : get_median_step (addAll (initD s) vs) r d') :
    r = (sortedValues vs)[vs.length / 2]? ∧
      ∃ m, (sortedValues vs)[vs.length / 2]? = some m := by
  have hne : vs ≠ [] := by
    intro h0; rw [h0] at hodd; simp at hodd
  have hlen0 : vs.length ≠ 0 := fun h0 => hne (List.length_eq_zero.mp h0)
  unfold get_median_step at h
  rw [addAll_values_init, if_neg hlen0] at h
  obtain ⟨hsort, hr⟩ := h
  have his : (addAll (initD s) vs).is_sorted = false := addAll_is_sorted _ _ hne
  obtain ⟨l', hspec, rfl⟩ := sortStep_spec _ _ his hsort
  rw [addAll_values_init] at hspec
  have hlen : l'.length = vs.length := hspec.1.length_eq.symm
  have hmed : medianOf l' = l'[vs.length / 2]? := by
    unfold medianOf
    rw [hlen, if_neg (by omega)]
  have hget : l'[vs.length / 2]? = (sortedValues vs)[vs.length / 2]? :=
    halfSort_getElem vs l' hspec _ (by omega)
  constructor
  · rw [hr]
    show medianOf l' = _
    rw [hmed, hget]
  · have hidx : vs.length / 2 < (sortedValues vs).length := by
      rw [sortedValues_length]; omega
    exact ⟨(sortedValues vs).get ⟨vs.length / 2, hidx⟩,
      by rw [List.getElem?_eq_getElem hidx]; rfl⟩

/-- Witness for C4 at the concrete sequence `1,2,3,4,5`: the median is
`3`, the middle element of the ascending order. -/
theorem C4_get_median_odd_witness :
    some (3 : ℚ) = (sortedValues [1, 2, 3, 4, 5])[(5 : ℕ) / 2]? ∧
      ∃ m, (sortedValues ([1, 2, 3, 4, 5] : List ℚ))[(5 : ℕ) / 2]? = some m := by
  have h := C4_get_median_odd 0 [1, 2, 3, 4, 5] (some 3)
    { addAll (initD 0) [1, 2, 3, 4, 5] with
        values := [1, 2, 3, 4, 5], is_sorted := true }
    (by decide)
    (by
      unfold get_median_step
      rw [addAll_values_init, if_neg (by decide)]
      refine ⟨sortStep_intro _ [1, 2, 3, 4, 5] (by decide)
        (by rw [addAll_values_init]; decide), ?_⟩
      decide)
  exact h

/-! ### Claim C1: even-count median -/

/-- Claim C1 is false as stated: after adding `1,2,3,4,5,6` (even count 6)
the ascending-ordered values have `4` at index `6/2 = 3` and `5` at index
`6/2 + 1 = 4`, so the claim asserts the result `(4 + 5)/2`; but the
partial sort only orders the first `6/2 + 1 = 4` positions, and the
conforming outcome `[1,2,3,4,6,5]` makes `get_median()` read `values[4] = 6`
and return `5 ≠ 9/2`. -/
theorem C1_get_median_even_counterexample :
    (sortedValues [1, 2, 3, 4, 5, 6])[(6 : ℕ) / 2]? = some 4 ∧
    (sortedValues [1, 2, 3, 4, 5, 6])[(6 : ℕ) / 2 + 1]? = some 5 ∧
    ¬ (∀ r d', get_median_step (addAll (initD 0) [1, 2, 3, 4, 5, 6]) r d' →
        r = some (((4 : ℚ) + 5) / 2)) := by
  refine ⟨by decide, by decide, ?_⟩
  intro hclaim
  have hstep : get_median_step (addAll (initD 0) [1, 2, 3, 4, 5, 6])
      (medianOf [1, 2, 3, 4, 6, 5])
      { addAll (initD 0) [1, 2, 3, 4, 5, 6] with
          values := [1, 2, 3, 4, 6, 5], is_sorted := true } := by
    unfold get_median_step
    rw [addAll_values_init, if_neg (by decide)]
    exact ⟨sortStep_intro _ [1, 2, 3, 4, 6, 5] (by decide)
      (by rw [addAll_values_init]; decide), rfl⟩
  have hmv : medianOf [1, 2, 3, 4, 6, 5] = some 5 := by
    unfold medianOf
    norm_num
  have hc := hclaim _ _ hstep
  rw [hmv] at hc
  have : (5 : ℚ) = (4 + 5) / 2 := Option.some.inj hc
  norm_num at this

/-- Claim C1 amended: for an even count of exactly 4 the tail beyond the
sorted prefix has a single element, so `get_median()` does return the
average of the elements at zero-based indices 2 and 3 of the
ascending-ordered values (3.5 after adding 1,2,3,4); for an even count
of 2 the read of `values[2]` is past the end of the vector (undefined
behaviour, modelled as an absent result).  For even counts ≥ 6 the
element read at physical index `count/2 + 1` is an unspecified element
of the unsorted tail, so the stated average is not guaranteed (see the
counterexample). -/
theorem C1_get_median_even_amended (s : ℚ) (vs : List ℚ) (r : Option ℚ)
    (d' : Descriptive) (h : get_median_step (addAll (initD s) vs) r d') :
    (vs.length = 4 → ∃ x y, (sortedValues vs)[2]? = some x ∧
      (sortedValues vs)[3]? = some y ∧ r = some ((x + y) / 2)) ∧
    (vs.length = 2 → r = none) := by
  constructor
  · intro h4
    have hne : vs ≠ [] := by
      intro h0; rw [h0] at h4; simp at h4
    unfold get_median_step at h
    rw [addAll_values_init, if_neg (by omega)] at h
    obtain ⟨hsort, hr⟩ := h
    have his : (addAll (initD s) vs).is_sorted = false := addAll_is_sorted _ _ hne
    obtain ⟨l', hspec, rfl⟩ := sortStep_spec _ _ his hsort
    rw [addAll_values_init] at hspec
    have hlen : l'.length = 4 := by rw [← hspec.1.length_eq, h4]
    have hkey := halfSort_key vs l' hspec
    rw [h4] at hkey
    norm_num at hkey
    have ht1 : (l'.drop 3).length = 1 := by rw [List.length_drop, hlen]
    obtain ⟨y0, hy0⟩ := List.length_eq_one.mp ht1
    rw [hy0] at hkey
    have hsingle : sortedValues [y0] = [y0] := rfl
    rw [hsingle] at hkey
    have hl' : l' = sortedValues vs := by
      rw [hkey, ← hy0, List.take_append_drop]
    have h2lt : 2 < l'.length := by omega
    have h3lt : 3 < l'.length := by omega
    refine ⟨l'.get ⟨2, h2lt⟩, l'.get ⟨3, h3lt⟩, ?_, ?_, ?_⟩
    · rw [← hl', List.getElem?_eq_getElem h2lt]; rfl
    · rw [← hl', List.getElem?_eq_getElem h3lt]; rfl
    · rw [hr]
      show medianOf l' = _
      unfold medianOf
      simp only [hlen]
      norm_num
      rw [List.getElem?_eq_getElem h2lt, List.getElem?_eq_getElem h3lt]
  · intro h2
    have hne : vs ≠ [] := by
      intro h0; rw [h0] at h2; simp at h2
    unfold get_median_step at h
    rw [addAll_values_init, if_neg (by omega)] at h
    obtain ⟨hsort, hr⟩ := h
    have his : (addAll (initD s) vs).is_sorted = false := addAll_is_sorted _ _ hne
    obtain ⟨l', hspec, rfl⟩ := sortStep_spec _ _ his hsort
    rw [addAll_values_init] at hspec
    have hlen : l'.length = 2 := by rw [← hspec.1.length_eq, h2]
    rw [hr]
    show medianOf l' = none
    unfold medianOf
    simp only [hlen]
    norm_num
    have h2none : l'[2]? = none := List.getElem?_eq_none (by omega)
    rw [h2none]
    rcases l'[1]? with _ | x <;> rfl

/-- Witness for the amended C1 at the concrete sequence `1,2,3,4`:
`get_median()` returns `(3 + 4)/2 = 3.5`, the average of the elements at
indices 2 and 3 of the ascending order. -/
theorem C1_get_median_even_amended_witness :
    ∃ x y, (sortedValues ([1, 2, 3, 4] : List ℚ))[2]? = some x ∧
      (sortedValues ([1, 2, 3, 4] : List ℚ))[3]? = some y ∧
      some ((7 : ℚ) / 2) = some ((x + y) / 2) :=
  (C1_get_median_even_amended 0 [1, 2, 3, 4] (some (7 / 2))
    { addAll (initD 0) [1, 2, 3, 4] with values := [1, 2, 3, 4], is_sorted := true }
    (by
      unfold get_median_step
      rw [addAll_values_init, if_neg (by decide)]
      refine ⟨sortStep_intro _ [1, 2, 3, 4] (by decide)
        (by rw [addAll_values_init]; decide), ?_⟩
      show some ((7 : ℚ) / 2) = medianOf [1, 2, 3, 4]
      unfold medianOf
      norm_num)).1 rfl

/-! ### Claim C2: running variance equals the two-pass population variance -/

lemma qdiv_addAll (s : ℚ) (vs : List ℚ) (hne : vs ≠ []) :
    (addAll (initD s) vs).q / ((addAll (initD s) vs).get_count : ℚ) = popVariance vs := by
  have hq := (addAll_a_q s vs).2
  have hlen := addAll_length s vs
  show (addAll (initD s) vs).q / ((addAll (initD s) vs).values.length : ℚ) = _
  rw [hlen, hq, popVariance_eq vs hne]

lemma stddev_addAll (s : ℚ) (vs : List ℚ) (hne : vs ≠ []) :
    (addAll (initD s) vs).get_standard_deviation
      = some (Real.sqrt ((popVariance vs : ℚ) : ℝ)) := by
  have hlen := addAll_length s vs
  have hlen0 : vs.length ≠ 0 := fun h0 => hne (List.length_eq_zero.mp h0)
  have hmain : (addAll (initD s) vs).q / (vs.length : ℚ) = popVariance vs := by
    have h := qdiv_addAll s vs hne
    rwa [show ((addAll (initD s) vs).get_count : ℚ) = (vs.length : ℚ) from by
      show ((addAll (initD s) vs).values.length : ℚ) = _
      rw [hlen]] at h
  show (if (addAll (initD s) vs).values.length = 0 then none
    else some (Real.sqrt (((addAll (initD s) vs).q : ℝ) /
      ((addAll (initD s) vs).values.length : ℝ)))) = _
  rw [hlen, if_neg hlen0]
  have hcast : (((addAll (initD s) vs).q / (vs.length : ℚ) : ℚ) : ℝ)
      = ((popVariance vs : ℚ) : ℝ) := by rw [hmain]
  push_cast at hcast
  rw [hcast]

/-- Claim C2: for every non-empty sequence of added values, the
running-variance state `q` satisfies `q / count = population variance`
(exact over exact arithmetic), and `get_standard_deviation()` equals the
square root of the two-pass population variance. -/
theorem C2_running_variance (s : ℚ) (vs : List ℚ) (hne : vs ≠ []) :
    (addAll (initD s) vs).q / ((addAll (initD s) vs).get_count : ℚ) = popVariance vs ∧
    (addAll (initD s) vs).get_standard_deviation
      = some (Real.sqrt ((popVariance vs : ℚ) : ℝ)) :=
  ⟨qdiv_addAll s vs hne, stddev_addAll s vs hne⟩

/-- Witness for C2 at the concrete sequence `1,2,3`. -/
theorem C2_running_variance_witness :
    (addAll (initD 0) [1, 2, 3]).q / ((addAll (initD 0) [1, 2, 3]).get_count : ℚ)
        = popVariance [1, 2, 3] ∧
    (addAll (initD 0) [1, 2, 3]).get_standard_deviation
        = some (Real.sqrt ((popVariance [1, 2, 3] : ℚ) : ℝ)) :=
  C2_running_variance 0 [1, 2, 3] (by decide)

/-! ### Claim C5: `get_max` returns the true maximum, sentinel when empty -/

lemma max_addAll_char (s : ℚ) (vs : List ℚ) (hne : vs ≠ []) (hs : ∀ v ∈ vs, s ≤ v) :
    (addAll (initD s) vs).get_max ∈ vs ∧
      ∀ v ∈ vs, v ≤ (addAll (initD s) vs).get_max := by
  have hmax : (addAll (initD s) vs).max = vs.foldl Max.max s := by
    rw [addAll_max]; rfl
  obtain ⟨h1, h2, h3⟩ := foldl_max_spec vs s
  constructor
  · rcases h3 with h | h
    · obtain ⟨v₀, hv₀⟩ := List.exists_mem_of_ne_nil vs hne
      have hle : v₀ ≤ vs.foldl Max.max s := h2 v₀ hv₀
      have hge : vs.foldl Max.max s ≤ v₀ := by rw [h]; exact hs v₀ hv₀
      have heq : v₀ = vs.foldl Max.max s := le_antisymm hle hge
      show (addAll (initD s) vs).max ∈ vs
      rw [hmax, ← heq]
      exact hv₀
    · show (addAll (initD s) vs).max ∈ vs
      rw [hmax]
      exact h
  · intro v hv
    show v ≤ (addAll (initD s) vs).max
    rw [hmax]
    exact h2 v hv

/-- Claim C5: `get_max()` equals the maximum of all added values for every
non-empty sequence and any insertion order (given that all values are at
least the sentinel, as is true of every representable value of `T`), and
equals the sentinel (the constructor's `numeric_limits<T>::min()`) when
`count == 0`. -/
theorem C5_get_max (s : ℚ) (vs : List ℚ) :
    (addAll (initD s) []).get_max = s ∧
    (vs ≠ [] → (∀ v ∈ vs, s ≤ v) →
      (addAll (initD s) vs).get_max ∈ vs ∧
        ∀ v ∈ vs, v ≤ (addAll (initD s) vs).get_max) :=
  ⟨rfl, fun hne hs => max_addAll_char s vs hne hs⟩

/-- Witness for C5 with sentinel `0` and the concrete sequence `1,2`. -/
theorem C5_get_max_witness :
    (addAll (initD 0) []).get_max = 0 ∧
    ((addAll (initD 0) [1, 2]).get_max ∈ ([1, 2] : List ℚ) ∧
      ∀ v ∈ ([1, 2] : List ℚ), v ≤ (addAll (initD 0) [1, 2]).get_max) :=
  ⟨(C5_get_max 0 [1, 2]).1, (C5_get_max 0 [1, 2]).2 (by decide) (by decide)⟩

/-! ### Claim C6: empty accumulator yields NaN sentinels, no failures -/

/-- Claim C6: when no `add` has been performed, `get_median()` and
`get_standard_deviation()` return the not-a-number sentinel (modelled
`none`) rather than raising an error, and `get_mean()` is NaN
(`0.0 / 0`).  Every operation of the embedding is a total function or
total relation — nothing raises an exception or returns an error code. -/
theorem C6_empty_nan :
    (initD 0).get_mean = none ∧
    (initD 0).get_standard_deviation = none ∧
    get_median_step (initD 0) none (initD 0) ∧
    (∀ r d', get_median_step (initD 0) r d' → r = none ∧ d' = initD 0) := by
  have h0 : (initD 0).values.length = 0 := rfl
  refine ⟨rfl, ?_, ?_, ?_⟩
  · show (if (initD 0).values.length = 0 then none else _) = (none : Option ℝ)
    rw [if_pos h0]
  · unfold get_median_step
    rw [if_pos h0]
    exact ⟨rfl, rfl⟩
  · intro r d' h
    unfold get_median_step at h
    rwa [if_pos h0] at h

/-- Witness for C6: the unique result of `get_median()` on the fresh
accumulator is the NaN sentinel. -/
theorem C6_empty_nan_witness : (none : Option ℚ) = none ∧ initD 0 = initD 0 :=
  C6_empty_nan.2.2.2 none (initD 0) C6_empty_nan.2.2.1

/-! ### Claim C9: `get_sum` and `get_count` are exact and order-independent -/

/-- Claim C9: for every non-empty sequence of added values, `get_sum()`
equals the arithmetic sum of all values passed to `add` — exactly, since
arithmetic is exact in the embedding — and the sum is independent of the
insertion order; `get_count()` equals the number of `add` calls. -/
theorem C9_sum_count (s : ℚ) (vs vs' : List ℚ) (_hne : vs ≠ []) (hp : vs.Perm vs') :
    (addAll (initD s) vs).get_sum = vs.sum ∧
    (addAll (initD s) vs).get_count = vs.length ∧
    (addAll (initD s) vs').get_sum = (addAll (initD s) vs).get_sum := by
  have h1 : ∀ l : List ℚ, (addAll (initD s) l).get_sum = l.sum := by
    intro l
    show (addAll (initD s) l).sum = l.sum
    rw [addAll_sum]
    show (0 : ℚ) + l.sum = l.sum
    ring
  exact ⟨h1 vs, addAll_length s vs, by rw [h1 vs', h1 vs, hp.sum_eq]⟩

/-- Witness for C9 at `1,2` and its reordering `2,1`. -/
theorem C9_sum_count_witness :
    (addAll (initD 0) [1, 2]).get_sum = ([1, 2] : List ℚ).sum ∧
    (addAll (initD 0) [1, 2]).get_count = ([1, 2] : List ℚ).length ∧
    (addAll (initD 0) [2, 1]).get_sum = (addAll (initD 0) [1, 2]).get_sum :=
  C9_sum_count 0 [1, 2] [2, 1] (by decide) (by decide)

/-! ### Further step-relation lemmas shared by C7, C8, C10 -/

lemma sortStep_refl_of_sorted (d : Descriptive) (h : d.is_sorted = true) :
    sortStep d d := by
  unfold sortStep
  rw [if_pos h]

lemma sortStep_getters (d d' : Descriptive) (h : sortStep d d') :
    d'.get_sum = d.get_sum ∧ d'.get_count = d.get_count ∧ d'.get_max = d.get_max ∧
    d'.get_mean = d.get_mean ∧
    d'.get_standard_deviation = d.get_standard_deviation := by
  obtain ⟨hsum, hmax, _, hq, hperm⟩ := sortStep_frame d d' h
  have hlen : d'.values.length = d.values.length := hperm.length_eq.symm
  refine ⟨hsum, hlen, hmax, ?_, ?_⟩
  · unfold Descriptive.get_mean
    rw [hsum, hlen]
  · unfold Descriptive.get_standard_deviation
    rw [hq, hlen]

lemma get_median_step_frame (d d' : Descriptive) (r : Option ℚ)
    (h : get_median_step d r d') :
    d'.sum = d.sum ∧ d'.max = d.max ∧ d'.a = d.a ∧ d'.q = d.q ∧
      d.values.Perm d'.values := by
  unfold get_median_step at h
  split at h
  · obtain ⟨_, rfl⟩ := h
    exact ⟨rfl, rfl, rfl, rfl, List.Perm.refl _⟩
  · exact sortStep_frame d d' h.1

lemma render_step_frame (d d' : Descriptive) (out : RenderLine)
    (h : render_step d out d') :
    d'.sum = d.sum ∧ d'.max = d.max ∧ d'.a = d.a ∧ d'.q = d.q ∧
      d.values.Perm d'.values := by
  unfold render_step at h
  split at h
  · obtain ⟨mn, d₁, mean, sd, hmin, _, _, _, rfl⟩ := h
    exact sortStep_frame d _ hmin.1
  · obtain ⟨_, rfl⟩ := h
    exact ⟨rfl, rfl, rfl, rfl, List.Perm.refl _⟩

/-! ### Claim C8: queries are idempotent, the sort runs at most once -/

/-- Claim C8: every `add` clears `is_sorted`; the first query-triggered
sort sets it; a `sort()` on a sorted state is a no-op; and the two
sort-triggering queries (`get_min`, `get_median`) called twice in a row
without an intervening `add` return identical results and leave the state
of the first call untouched (the second call performs no sorting work). -/
theorem C8_idempotent :
    (∀ (d : Descriptive) (v : ℚ), (d.add v).is_sorted = false) ∧
    (∀ d d' : Descriptive, d.is_sorted = false → sortStep d d' → d'.is_sorted = true) ∧
    (∀ d d' : Descriptive, d.is_sorted = true → sortStep d d' → d' = d) ∧
    (∀ (d d₁ d₂ : Descriptive) (r₁ r₂ : Option ℚ),
      get_min_step d r₁ d₁ → get_min_step d₁ r₂ d₂ → r₂ = r₁ ∧ d₂ = d₁) ∧
    (∀ (d d₁ d₂ : Descriptive) (r₁ r₂ : Option ℚ),
      get_median_step d r₁ d₁ → get_median_step d₁ r₂ d₂ → r₂ = r₁ ∧ d₂ = d₁) := by
  refine ⟨fun d v => rfl, fun d d' _ h => sortStep_sorted d d' h,
    sortStep_of_sorted, ?_, ?_⟩
  · intro d d₁ d₂ r₁ r₂ h₁ h₂
    obtain ⟨hs₁, hr₁⟩ := h₁
    obtain ⟨hs₂, hr₂⟩ := h₂
    have hsorted₁ : d₁.is_sorted = true := sortStep_sorted d d₁ hs₁
    have hd₂ : d₂ = d₁ := sortStep_of_sorted d₁ d₂ hsorted₁ hs₂
    subst hd₂
    exact ⟨hr₂.trans hr₁.symm, rfl⟩
  · intro d d₁ d₂ r₁ r₂ h₁ h₂
    unfold get_median_step at h₁ h₂
    by_cases hc : d.values.length = 0
    · rw [if_pos hc] at h₁
      obtain ⟨hr₁, rfl⟩ := h₁
      rw [if_pos hc] at h₂
      obtain ⟨hr₂, rfl⟩ := h₂
      exact ⟨hr₂.trans hr₁.symm, rfl⟩
    · rw [if_neg hc] at h₁
      obtain ⟨hs₁, hr₁⟩ := h₁
      have hsorted₁ : d₁.is_sorted = true := sortStep_sorted d d₁ hs₁
      have hlen₁ : d₁.values.length = d.values.length :=
        (sortStep_frame d d₁ hs₁).2.2.2.2.length_eq.symm
      rw [if_neg (by rw [hlen₁]; exact hc)] at h₂
      obtain ⟨hs₂, hr₂⟩ := h₂
      have hd₂ : d₂ = d₁ := sortStep_of_sorted d₁ d₂ hsorted₁ hs₂
      subst hd₂
      exact ⟨hr₂.trans hr₁.symm, rfl⟩

/-- Witness for C8: `get_min` twice on the accumulator holding `2, 1`
returns `1` both times and the second call does not move the state. -/
theorem C8_idempotent_witness :
    some (1 : ℚ) = some (1 : ℚ) ∧
    ({ addAll (initD 0) [2, 1] with values := [1, 2], is_sorted := true } : Descriptive)
      = { addAll (initD 0) [2, 1] with values := [1, 2], is_sorted := true } :=
  C8_idempotent.2.2.2.1 (addAll (initD 0) [2, 1])
    { addAll (initD 0) [2, 1] with values := [1, 2], is_sorted := true }
    { addAll (initD 0) [2, 1] with values := [1, 2], is_sorted := true }
    (some 1) (some 1)
    ⟨sortStep_intro _ [1, 2] (by decide) (by rw [addAll_values_init]; decide), rfl⟩
    ⟨sortStep_refl_of_sorted _ rfl, rfl⟩

/-! ### Claim C10: queries only permute `values` and set `is_sorted` -/

/-- Claim C10: every query that can change the state at all (`sort`,
`get_min`, `get_median`, rendering) leaves `sum`, `max`, the variance
state `a` and `q`, the element count and the multiset of stored values
unchanged — it can only permute `values` and set `is_sorted`; the pure
getters read only preserved components, so every getter returns the same
value after such a step as before; and any result a `get_median` can
produce after an earlier `get_min` could already be produced without it. -/
theorem C10_query_frame :
    (∀ d d' : Descriptive, sortStep d d' →
      d'.sum = d.sum ∧ d'.max = d.max ∧ d'.a = d.a ∧ d'.q = d.q ∧
        d.values.Perm d'.values) ∧
    (∀ (d d' : Descriptive) (r : Option ℚ), get_min_step d r d' →
      d'.sum = d.sum ∧ d'.max = d.max ∧ d'.a = d.a ∧ d'.q = d.q ∧
        d.values.Perm d'.values) ∧
    (∀ (d d' : Descriptive) (r : Option ℚ), get_median_step d r d' →
      d'.sum = d.sum ∧ d'.max = d.max ∧ d'.a = d.a ∧ d'.q = d.q ∧
        d.values.Perm d'.values) ∧
    (∀ (d d' : Descriptive) (out : RenderLine), render_step d out d' →
      d'.sum = d.sum ∧ d'.max = d.max ∧ d'.a = d.a ∧ d'.q = d.q ∧
        d.values.Perm d'.values) ∧
    (∀ d d' : Descriptive, sortStep d d' →
      d'.get_sum = d.get_sum ∧ d'.get_count = d.get_count ∧
      d'.get_max = d.get_max ∧ d'.get_mean = d.get_mean ∧
      d'.get_standard_deviation = d.get_standard_deviation) ∧
    (∀ (d d₁ d₂ : Descriptive) (r₁ r : Option ℚ),
      get_min_step d r₁ d₁ → get_median_step d₁ r d₂ →
        ∃ d₃, get_median_step d r d₃) := by
  refine ⟨sortStep_frame, fun d d' r h => sortStep_frame d d' h.1,
    get_median_step_frame, render_step_frame, sortStep_getters, ?_⟩
  intro d d₁ d₂ r₁ r hmin hmed
  obtain ⟨hs, _⟩ := hmin
  cases hds : d.is_sorted with
  | true =>
    have hd₁ : d₁ = d := sortStep_of_sorted d d₁ hds hs
    subst hd₁
    exact ⟨d₂, hmed⟩
  | false =>
    obtain ⟨l', hspec, rfl⟩ := sortStep_spec d d₁ hds hs
    unfold get_median_step at hmed ⊢
    by_cases hc : d.values.length = 0
    · have hc' : ({ d with values := l', is_sorted := true } :
          Descriptive).values.length = 0 := by
        show l'.length = 0
        rw [← hspec.1.length_eq]
        exact hc
      rw [if_pos hc'] at hmed
      refine ⟨d, ?_⟩
      rw [if_pos hc]
      exact ⟨hmed.1, rfl⟩
    · have hc' : ¬({ d with values := l', is_sorted := true } :
          Descriptive).values.length = 0 := by
        show ¬l'.length = 0
        rw [← hspec.1.length_eq]
        exact hc
      rw [if_neg hc'] at hmed
      obtain ⟨hs₂, hr⟩ := hmed
      have hd₂ : d₂ = { d with values := l', is_sorted := true } :=
        sortStep_of_sorted _ d₂ rfl hs₂
      refine ⟨{ d with values := l', is_sorted := true }, ?_⟩
      rw [if_neg hc]
      exact ⟨sortStep_intro d l' hds hspec, by rw [hr, hd₂]⟩

/-- Witness for C10: the no-op sort on the fresh accumulator preserves
every component. -/
theorem C10_query_frame_witness :
    (initD 0).sum = (initD 0).sum ∧ (initD 0).max = (initD 0).max ∧
    (initD 0).a = (initD 0).a ∧ (initD 0).q = (initD 0).q ∧
    (initD 0).values.Perm (initD 0).values :=
  C10_query_frame.1 (initD 0) (initD 0) (sortStep_refl_of_sorted (initD 0) rfl)

/-! ### Claim C7: the rendered line -/

lemma get_mean_addAll (s : ℚ) (vs : List ℚ) (hne : vs ≠ []) :
    (addAll (initD s) vs).get_mean = some (vs.sum / (vs.length : ℚ)) := by
  have hlen0 : vs.length ≠ 0 := fun h0 => hne (List.length_eq_zero.mp h0)
  unfold Descriptive.get_mean
  rw [addAll_length, if_neg hlen0, addAll_sum]
  norm_num [initD]

/-- Claim C7: the rendering operation emits, for `count != 0`, the single
line `count, min, mean, max, standard_deviation` in that order (tab
separation abstracted into the `RenderLine.fields` constructor), where the
fields are the count of added values, their minimum, their mean
`sum/count`, their maximum and the population standard deviation; for
`count == 0` it emits the literal `0` followed by four empty fields and
computes none of the statistics (the state is untouched). -/
theorem C7_render (s : ℚ) (vs : List ℚ) (out : RenderLine) (d' : Descriptive) :
    (vs = [] → render_step (addAll (initD s) vs) out d' →
      out = RenderLine.emptyFields ∧ d' = addAll (initD s) vs) ∧
    (vs ≠ [] → (∀ v ∈ vs, s ≤ v) → render_step (addAll (initD s) vs) out d' →
      ∃ mn mx, out = RenderLine.fields vs.length mn (vs.sum / (vs.length : ℚ)) mx
          (Real.sqrt ((popVariance vs : ℚ) : ℝ)) ∧
        (mn ∈ vs ∧ ∀ x ∈ vs, mn ≤ x) ∧
        (mx ∈ vs ∧ ∀ x ∈ vs, x ≤ mx)) := by
  constructor
  · intro h0 h
    subst h0
    unfold render_step at h
    rw [if_neg (by rw [addAll_values_init]; simp)] at h
    exact h
  · intro hne hs h
    have hlen0 : vs.length ≠ 0 := fun h0 => hne (List.length_eq_zero.mp h0)
    unfold render_step at h
    rw [addAll_values_init, if_pos hlen0] at h
    obtain ⟨mn, d₁, mean, sd, hmin, hmean, hsd, hout, rfl⟩ := h
    obtain ⟨m, hm, hmem, hmin_all⟩ := get_min_addAll_char s vs (some mn) _ hne hmin
    have hmn : mn = m := Option.some.inj hm
    obtain ⟨_, hcount, hmax, hmean_eq, hsd_eq⟩ := sortStep_getters _ _ hmin.1
    have hmean3 : mean = vs.sum / (vs.length : ℚ) :=
      (Option.some.inj ((hmean.symm.trans hmean_eq).trans
        (get_mean_addAll s vs hne))).symm.symm
    have hsd3 : sd = Real.sqrt ((popVariance vs : ℚ) : ℝ) :=
      Option.some.inj ((hsd.symm.trans hsd_eq).trans (stddev_addAll s vs hne))
    obtain ⟨hmx_mem, hmx_ub⟩ := max_addAll_char s vs hne hs
    refine ⟨m, (addAll (initD s) vs).get_max, ?_,
      ⟨hmem, hmin_all⟩, ⟨hmx_mem, hmx_ub⟩⟩
    rw [hout, hmn, hmean3, hsd3, hmax,
      show (addAll (initD s) vs).get_count = vs.length from addAll_length s vs]

/-- Witness for C7 at the empty accumulator: rendering emits the literal
`0` row with four empty fields and leaves the state alone. -/
theorem C7_render_witness :
    RenderLine.emptyFields = RenderLine.emptyFields ∧ initD 0 = addAll (initD 0) [] :=
  (C7_render 0 [] RenderLine.emptyFields (initD 0)).1 rfl
    (by
      unfold render_step
      rw [if_neg (by rw [addAll_values_init]; simp)]
      exact ⟨rfl, rfl⟩)

end CqMetrics
